import Mathlib

/-!
Verification development for the SteamBubbles identity-merge aggregation
pipeline (`src/steam-bubbles/src/App.tsx`).

The embedding translates the merge-forest, aggregation, visibility,
ranking and persistence-loading logic of `App.tsx` into executable Lean
definitions.  Title identifiers (`appid`) are modelled as `ℤ`, the playtime
metric (`hours`, derived from minutes in the normalizer) as `ℚ`.
-/

/-- One visualizable title, mirroring the `GameViz` record used by `App.tsx`
(`appid`, `name`, `hours`, `img`, `storeUrl`). -/
structure GameViz where
  appid : ℤ
  name : String
  hours : ℚ
  img : String
  storeUrl : String
deriving DecidableEq

/-- The merge forest `MergeMap = Record<number, number>` (fromAppid -> toAppid),
modelled as an association list with unique keys, in JS-object insertion
order. -/
abbrev MergeMap := List (ℤ × ℤ)

/-- Property read `map[cur]` on the merge map: the value at key `cur`,
`none` when the key is absent (JS `undefined`, so `map[cur] != null` is
`(lookupEdge m cur).isSome`). -/
def lookupEdge (m : MergeMap) (k : ℤ) : Option ℤ :=
  (m.find? (fun p => p.1 == k)).map (fun p => p.2)

/-- The JS object spread `{...prev, [from]: to}`: an existing key keeps its
position and gets the new value, a fresh key is appended. -/
def insertEdge (m : MergeMap) (f t : ℤ) : MergeMap :=
  if m.any (fun p => p.1 == f) then
    m.map (fun p => if p.1 == f then (p.1, t) else p)
  else
    m ++ [(f, t)]

/-- The loop body of `findMergeRoot` (App.tsx:216-224):
`while (map[cur] != null && !seen.has(cur)) { seen.add(cur); cur = map[cur]; }`.
The `while` loop is embedded with an explicit fuel counting loop iterations;
`go_fuel_eq` below proves that any fuel of at least the number of distinct
source identifiers gives the same (stable) result, so the fuel is an upper
bound on the iteration count, not part of the semantics. -/
def findMergeRootGo (m : MergeMap) : ℕ → List ℤ → ℤ → ℤ
  | 0, _, cur => cur
  | fuel + 1, seen, cur =>
    match lookupEdge m cur with
    | none => cur
    | some next => if cur ∈ seen then cur else findMergeRootGo m fuel (cur :: seen) next

/-- `findMergeRoot(appid, map)` of App.tsx:216-224: follow the outgoing edge
chain from `appid`, guarded by the visited set `seen`.  The default fuel
`m.length + 1` exceeds the number of distinct keys, hence is never exhausted
(`go_fuel_eq`). -/
def findMergeRoot (m : MergeMap) (appid : ℤ) : ℤ :=
  findMergeRootGo m (m.length + 1) [] appid

/-- Number of distinct source identifiers of `m` not yet in the guard set:
the variant of the `while` loop in `findMergeRoot`. -/
def unseenCount (m : MergeMap) (seen : List ℤ) : ℕ :=
  (((m.map Prod.fst).dedup).filter (fun k => decide (k ∉ seen))).length

/-- One edge step of the merge forest: `x` has outgoing edge to `y`. -/
def stepRel (m : MergeMap) (x y : ℤ) : Prop :=
  lookupEdge m x = some y

/-- The forest has no (directed) cycle: no identifier reaches itself by a
nonempty chain of edges. -/
def Acyclic (m : MergeMap) : Prop :=
  ∀ x, ¬ Relation.TransGen (stepRel m) x x

/-- The slice of the `App` component state that `addMerge` (App.tsx:226-241)
reads and writes: the merge forest, the two dropdown selections
(`"" ` modelled as `none`), and the error message. -/
structure AppState where
  mergeMap : MergeMap
  mergeFrom : Option ℤ
  mergeTo : Option ℤ
  error : String
deriving DecidableEq

/-- `addMerge` of App.tsx:226-241.  Silently returns when either endpoint is
blank or they coincide; otherwise resolves the root of `mergeTo` in the
forest with the candidate edge inserted, rejects with the loop message when
that root equals `mergeFrom`, and otherwise commits the edge and clears the
selections. -/
def addMerge (s : AppState) : AppState :=
  match s.mergeFrom, s.mergeTo with
  | some f, some t =>
    if f = t then s
    else
      let rootTo := findMergeRoot (insertEdge s.mergeMap f t) t
      if rootTo = f then { s with error := "That merge would create a loop." }
      else { s with mergeMap := insertEdge s.mergeMap f t, mergeFrom := none, mergeTo := none }
  | _, _ => s

/-- `toggleHide(appid)` of App.tsx:202-209: remove `appid` from the hidden
set if present, insert it otherwise. -/
def toggleHide (appid : ℤ) (hidden : Finset ℤ) : Finset ℤ :=
  if appid ∈ hidden then hidden.erase appid else insert appid hidden

/-- The order used by `sort((a, b) => b.hours - a.hours)` (App.tsx:381):
`a` may come before `b` exactly when `b.hours ≤ a.hours`. -/
def hoursGE (a b : GameViz) : Prop := b.hours ≤ a.hours

instance : DecidableRel hoursGE := fun a b => inferInstanceAs (Decidable (b.hours ≤ a.hours))

instance : IsTotal GameViz hoursGE := ⟨fun a b => le_total b.hours a.hours⟩

instance : IsTrans GameViz hoursGE := ⟨fun _ _ _ hab hbc => le_trans hbc hab⟩

/-- `[...visibleGames].sort((a, b) => b.hours - a.hours)` (App.tsx:381).
ECMAScript `Array.prototype.sort` is a stable sort by the comparator, which
insertion sort with `hoursGE` realizes exactly. -/
def sortGames (l : List GameViz) : List GameViz :=
  List.insertionSort hoursGE l

/-- The `filtered` memo of App.tsx:380-384: sort the visible games by
descending hours; return all of them when `showAll` is set, otherwise the
first `Math.max(5, topN)` of them. -/
def filteredList (visibleGames : List GameViz) (topN : ℤ) (showAll : Bool) : List GameViz :=
  let sorted := sortGames visibleGames
  if showAll then sorted else sorted.take (max 5 topN).toNat

/-- Lookup in `byId = new Map(base.map(b => [b.appid, b]))` (App.tsx:349):
with duplicate keys the later insertion wins, which the left fold realizes. -/
def byIdGet (base : List GameViz) (id : ℤ) : Option GameViz :=
  base.foldl (fun acc b => if b.appid = id then some b else acc) none

/-- `merged.get(root)` on the accumulated association list. -/
def assocFind (acc : List (ℤ × GameViz)) (root : ℤ) : Option GameViz :=
  (acc.find? (fun p => p.1 == root)).map (fun p => p.2)

/-- `existing.hours += g.hours` (App.tsx:358): add `h` to the hours of the
entry at key `root`, leaving everything else in place. -/
def bumpHours : List (ℤ × GameViz) → ℤ → ℚ → List (ℤ × GameViz)
  | [], _, _ => []
  | (k, v) :: rest, root, h =>
    if k = root then (k, { v with hours := v.hours + h }) :: rest
    else (k, v) :: bumpHours rest root h

/-- The body of the aggregation loop (App.tsx:352-365) for one title `g`:
resolve its root, fetch the display identity `byId.get(root) || g`, then
either accumulate hours into the existing bucket or create it. -/
def aggStep (base : List GameViz) (m : MergeMap) (acc : List (ℤ × GameViz)) (g : GameViz) :
    List (ℤ × GameViz) :=
  let root := findMergeRoot m g.appid
  let rootGame := (byIdGet base root).getD g
  match assocFind acc root with
  | some _ => bumpHours acc root g.hours
  | none => acc ++ [(root, { rootGame with hours := g.hours })]

/-- The aggregation effect of App.tsx:327-368 restricted to its core: the
`merged` map after folding the loop over `base`, as an association list in
`Map` insertion order. -/
def aggregateApp (base : List GameViz) (m : MergeMap) : List (ℤ × GameViz) :=
  base.foldl (aggStep base m) []

/-- `games = [...merged.values()]` (App.tsx:367). -/
def aggValues (base : List GameViz) (m : MergeMap) : List GameViz :=
  (aggregateApp base m).map (fun p => p.2)

/-- `visibleGames = games.filter(g => !hiddenAppids.has(g.appid))`
(App.tsx:375-378). -/
def visibleOf (games : List GameViz) (hidden : Finset ℤ) : List GameViz :=
  games.filter (fun g => decide (g.appid ∉ hidden))

/-- The display identity of an aggregated entry: every field except the
accumulated hours. -/
def ident (g : GameViz) : ℤ × String × String × String :=
  (g.appid, g.name, g.img, g.storeUrl)

/-- Total hours over the aggregated entries. -/
def sumHours (l : List (ℤ × GameViz)) : ℚ :=
  (l.map (fun p => p.2.hours)).sum

/-- JSON values, for the persistence layer (App.tsx:162-185). -/
inductive Json where
  | null : Json
  | bool (b : Bool) : Json
  | num (n : ℤ) : Json
  | str (s : String) : Json
  | arr (elems : List Json) : Json
  | obj (fields : List (String × Json)) : Json

/-- JS truthiness of a parsed JSON value (no NaN arises from `JSON.parse`). -/
def truthy : Json → Bool
  | Json.null => false
  | Json.bool b => b
  | Json.num n => !(n == 0)
  | Json.str s => !(s == "")
  | Json.arr _ => true
  | Json.obj _ => true

/-- `typeof v === "object"` for a parsed JSON value: true for objects,
arrays and `null`. -/
def typeofObject : Json → Bool
  | Json.null => true
  | Json.arr _ => true
  | Json.obj _ => true
  | _ => false

/-- JS `Number(v)` coercion on a parsed JSON value, `none` standing for NaN.
Arrays coerce through their comma-joined string: `Number([]) = 0`,
`Number([x])` is the numeric parse of `x`'s element string (`null` joins as
the empty string, hence 0; booleans join as `\x22true\x22`/`\x22false\x22`, hence NaN),
and arrays of two or more elements contain a comma, hence NaN; objects
stringify to `[object Object]`, hence NaN.  String parsing models the
integer-valued cases exercised by the stored data (fractional and exponent
forms are outside the stored integer-id format). -/
def jsNumber : Json → Option ℤ
  | Json.null => some 0
  | Json.bool b => some (if b then 1 else 0)
  | Json.num n => some n
  | Json.str s => if s.trim = "" then some 0 else s.trim.toInt?
  | Json.arr [] => some 0
  | Json.arr [Json.bool _] => none
  | Json.arr [x] => jsNumber x
  | Json.arr _ => none
  | Json.obj _ => none

/-- JS numeric property access `v[k]`: array indexing, or object lookup by
the stringified key; `none` is `undefined`. -/
def jsIndex : Json → ℕ → Option Json
  | Json.arr xs, k => xs.get? k
  | Json.obj fields, k => (fields.find? (fun p => p.1 == toString k)).map (fun p => p.2)
  | _, _ => none

/-- A durable-store entry as seen by the initializers: `none` is a missing
(or empty) entry, `some none` an entry whose `JSON.parse` throws, and
`some (some j)` an entry parsing to `j`. -/
abbrev StoredValue := Option (Option Json)

/-- The `mergeMap` initializer (App.tsx:176-185): missing entry or parse
failure gives `{}`; a parsed value is kept exactly when it is truthy and of
`typeof \x22object\x22`, else replaced by `{}`. -/
def loadMergeValue (v : StoredValue) : Json :=
  match v with
  | none => Json.obj []
  | some none => Json.obj []
  | some (some j) => if truthy j && typeofObject j then j else Json.obj []

/-- The `hiddenAppids` initializer (App.tsx:162-172): missing entry or parse
failure gives `∅`; a parsed array is turned into the set of the numeric
coercions of its elements; any other parsed value gives `∅`. -/
def loadHidden (v : StoredValue) : Finset (Option ℤ) :=
  match v with
  | none => ∅
  | some none => ∅
  | some (some (Json.arr elems)) => (elems.map jsNumber).toFinset
  | some (some _) => ∅

/-! ## Supporting lemmas -/

/-- The empty forest is acyclic. -/
theorem acyclic_nil : Acyclic ([] : MergeMap) := by
  intro x h
  cases h with
  | single h' => simp [stepRel, lookupEdge] at h'
  | tail _ h' => simp [stepRel, lookupEdge] at h'

/-- Sorting does not change the number of games. -/
theorem length_sortGames (l : List GameViz) : (sortGames l).length = l.length :=
  (List.perm_insertionSort hoursGE l).length_eq

/-! ## C5: selection count -/

/-- C5: with `showAll` off, `filtered` has exactly `min (max 5 topN) |visible|`
entries (a limit below 5 is clamped up to 5); with `showAll` on it has all
`|visible|` entries. -/
theorem select_count (v : List GameViz) (topN : ℤ) :
    (filteredList v topN false).length = min (max 5 topN).toNat v.length ∧
    (filteredList v topN true).length = v.length := by
  constructor
  · simp [filteredList, List.length_take, length_sortGames]
  · simp [filteredList, length_sortGames]

/-! ## C7: invalid-edge handling -/

/-- C7 counterexample: a self-edge request is rejected as a completely
silent no-op — the state (including the error message) is unchanged, so no
`INVALID_EDGE` rejection is surfaced to the caller. -/
theorem addMerge_self_silent :
    (addMerge ⟨[], some 1, some 1, ""⟩ : AppState) = ⟨[], some 1, some 1, ""⟩ ∧
    (addMerge ⟨[], some 1, some 1, ""⟩ : AppState).error = "" := by
  constructor <;> rfl

/-- C7 amended: when either endpoint is blank or the endpoints coincide,
`addMerge` leaves the entire state (forest, selections, error message)
unchanged: the rejection is a silent no-op, not a surfaced error. -/
theorem addMerge_invalid_amended (s : AppState)
    (h : s.mergeFrom = none ∨ s.mergeTo = none ∨ s.mergeFrom = s.mergeTo) :
    addMerge s = s := by
  obtain ⟨m, f, t, e⟩ := s
  rcases h with h | h | h
  · simp only at h; subst h; rfl
  · simp only at h; subst h; cases f <;> rfl
  · simp only at h
    cases f with
    | none => rfl
    | some fv =>
      cases t with
      | none => rfl
      | some tv =>
        simp only [Option.some.injEq] at h
        subst h
        simp [addMerge]

/-- Witness for `addMerge_invalid_amended` at a concrete state. -/
theorem addMerge_invalid_amended_witness :
    addMerge ⟨[], none, some 2, ""⟩ = (⟨[], none, some 2, ""⟩ : AppState) :=
  addMerge_invalid_amended ⟨[], none, some 2, ""⟩ (Or.inl rfl)

/-! ## C1: cycle handling in addMerge -/

/-- C1 (code bug evaluation): starting from the forest {2→1, 1→3} (the
spec's Scenario 2 with A=1, B=2, C=3), the call `addMerge` with from=3,
to=2 commits the edge 3→2 without any error, and the committed forest
contains the directed cycle 3 → 2 → 1 → 3 — the `FORMS_CYCLE` rejection
never fires because the root resolution is run with the candidate edge
already inserted. -/
theorem addMerge_commits_cycle :
    addMerge ⟨[(2, 1), (1, 3)], some 3, some 2, ""⟩ =
      (⟨[(2, 1), (1, 3), (3, 2)], none, none, ""⟩ : AppState) ∧
    Relation.TransGen (stepRel [(2, 1), (1, 3), (3, 2)]) 3 3 := by
  refine ⟨rfl, ?_⟩
  exact Relation.TransGen.head
    (show stepRel [(2, 1), (1, 3), (3, 2)] 3 2 from rfl)
    (Relation.TransGen.head
      (show stepRel [(2, 1), (1, 3), (3, 2)] 2 1 from rfl)
      (Relation.TransGen.single
        (show stepRel [(2, 1), (1, 3), (3, 2)] 1 3 from rfl)))

/-! ## C9: toggle involution -/

/-- C9: toggling the same id twice restores the original hidden set. -/
theorem toggleHide_involution (hidden : Finset ℤ) (appid : ℤ) :
    toggleHide appid (toggleHide appid hidden) = hidden := by
  by_cases h : appid ∈ hidden
  · simp [toggleHide, h, Finset.insert_erase h]
  · simp [toggleHide, h, Finset.erase_insert h]

/-- Inserting a game whose hours equal `h` puts it in front of the other
games with hours `h`: everything that ends up before it has strictly larger
hours. -/
theorem filter_orderedInsert_eq (h : ℚ) (a : GameViz) (l : List GameViz) (ha : a.hours = h) :
    (List.orderedInsert hoursGE a l).filter (fun g => decide (g.hours = h)) =
      a :: l.filter (fun g => decide (g.hours = h)) := by
  induction l with
  | nil => simp [List.orderedInsert, ha]
  | cons b t ih =>
    by_cases hr : hoursGE a b
    · simp [List.orderedInsert, hr, ha]
    · have hb : ¬ b.hours = h := by
        simp only [hoursGE, not_le] at hr
        intro hbh
        exact absurd (hbh ▸ hr) (by simp [ha])
      simp [List.orderedInsert, hr, List.filter_cons, hb, ih]

/-- Inserting a game whose hours differ from `h` does not disturb the games
with hours `h`. -/
theorem filter_orderedInsert_ne (h : ℚ) (a : GameViz) (l : List GameViz) (ha : ¬ a.hours = h) :
    (List.orderedInsert hoursGE a l).filter (fun g => decide (g.hours = h)) =
      l.filter (fun g => decide (g.hours = h)) := by
  induction l with
  | nil => simp [List.orderedInsert, ha]
  | cons b t ih =>
    by_cases hr : hoursGE a b
    · simp [List.orderedInsert, hr, List.filter_cons, ha]
    · simp [List.orderedInsert, hr, List.filter_cons, ih]

/-- Stability of the sort: for every hours value, the games carrying it
appear in the output in exactly their input order. -/
theorem filter_sortGames (h : ℚ) (l : List GameViz) :
    (sortGames l).filter (fun g => decide (g.hours = h)) =
      l.filter (fun g => decide (g.hours = h)) := by
  induction l with
  | nil => rfl
  | cons a t ih =>
    show (List.orderedInsert hoursGE a (sortGames t)).filter _ = _
    by_cases ha : a.hours = h
    · rw [filter_orderedInsert_eq h a _ ha, ih, List.filter_cons]
      simp [ha]
    · rw [filter_orderedInsert_ne h a _ ha, ih, List.filter_cons]
      simp [ha]

/-- The tie-break order the claim asserts: among equal hours, ascending id. -/
def tieAscending (l : List GameViz) : Prop :=
  l.Pairwise (fun a b => a.hours = b.hours → a.appid < b.appid)

/-- C4 counterexample. -/
theorem ranking_tie_counterexample :
    ¬ (List.Sorted hoursGE
         (filteredList [⟨2, "A", 5, "iA", "sA"⟩, ⟨1, "B", 5, "iB", "sB"⟩] 0 true) ∧
       tieAscending
         (filteredList [⟨2, "A", 5, "iA", "sA"⟩, ⟨1, "B", 5, "iB", "sB"⟩] 0 true)) := by
  simp only [tieAscending, List.Sorted]
  decide

/-- C4 amended. -/
theorem ranking_amended (v : List GameViz) (topN : ℤ) (showAll : Bool) (h : ℚ) :
    List.Sorted hoursGE (filteredList v topN showAll) ∧
    filteredList v topN true = sortGames v ∧
    (sortGames v).filter (fun g => decide (g.hours = h)) =
      v.filter (fun g => decide (g.hours = h)) := by
  refine ⟨?_, rfl, filter_sortGames h v⟩
  cases showAll with
  | true => exact List.sorted_insertionSort hoursGE v
  | false =>
    exact List.Pairwise.sublist (List.take_sublist _ _) (List.sorted_insertionSort hoursGE v)

/-- `bumpHours` at a present key adds exactly `h` to the total hours. -/
theorem sumHours_bumpHours (acc : List (ℤ × GameViz)) (root : ℤ) (h : ℚ)
    (hp : (assocFind acc root).isSome) :
    sumHours (bumpHours acc root h) = sumHours acc + h := by
  induction acc with
  | nil => simp [assocFind] at hp
  | cons p rest ih =>
    obtain ⟨k, v⟩ := p
    by_cases hk : k = root
    · subst hk
      simp [bumpHours, sumHours]
      ring
    · have hp' : (assocFind rest root).isSome := by
        simpa [assocFind, List.find?_cons, hk] using hp
      simp [bumpHours, hk, sumHours] at ih ⊢
      rw [ih hp']
      ring

/-- One pass of the aggregation loop adds exactly the game's hours to the
total. -/
theorem sumHours_aggStep (base : List GameViz) (m : MergeMap)
    (acc : List (ℤ × GameViz)) (g : GameViz) :
    sumHours (aggStep base m acc g) = sumHours acc + g.hours := by
  unfold aggStep
  simp only
  cases hf : assocFind acc (findMergeRoot m g.appid) with
  | none => simp [sumHours]
  | some e => exact sumHours_bumpHours acc _ g.hours (by simp [hf])

/-- Folding the aggregation loop over `l` adds the total hours of `l`. -/
theorem sumHours_foldl (base : List GameViz) (m : MergeMap) (l : List GameViz) :
    ∀ acc, sumHours (l.foldl (aggStep base m) acc) =
      sumHours acc + (l.map (fun g => g.hours)).sum := by
  induction l with
  | nil => intro acc; simp
  | cons g t ih =>
    intro acc
    simp only [List.foldl_cons, List.map_cons, List.sum_cons]
    rw [ih, sumHours_aggStep]
    ring

/-- C2: for every title list and every acyclic forest, aggregation preserves
the total playtime: the summed hours of the aggregated entries equal the
summed hours of the input titles (nothing lost, nothing duplicated). -/
theorem aggregate_lossless (base : List GameViz) (m : MergeMap) (_hac : Acyclic m) :
    sumHours (aggregateApp base m) = (base.map (fun g => g.hours)).sum := by
  have := sumHours_foldl base m base []
  simpa [aggregateApp, sumHours] using this

/-- Witness for `aggregate_lossless` at a concrete title list and the
(acyclic) empty forest. -/
theorem aggregate_lossless_witness :
    sumHours (aggregateApp [⟨1, "one", 10, "i", "s"⟩] []) =
      (([⟨1, "one", 10, "i", "s"⟩] : List GameViz).map (fun g => g.hours)).sum :=
  aggregate_lossless [⟨1, "one", 10, "i", "s"⟩] [] acyclic_nil

/-- Toggling one id changes hidden-set membership only at that id. -/
theorem mem_toggleHide_ne (a id : ℤ) (hidden : Finset ℤ) (h : a ≠ id) :
    a ∈ toggleHide id hidden ↔ a ∈ hidden := by
  unfold toggleHide
  split <;> simp [Finset.mem_erase, Finset.mem_insert, h]

/-- C10: toggling an id that is not the id of any aggregated entry leaves
the visible filtered feed unchanged, for every title list, acyclic forest,
hidden set, limit and show-all flag. -/
theorem toggle_nonentry_feed (base : List GameViz) (m : MergeMap) (hidden : Finset ℤ)
    (id topN : ℤ) (showAll : Bool) (_hac : Acyclic m)
    (h : id ∉ (aggValues base m).map (fun g => g.appid)) :
    filteredList (visibleOf (aggValues base m) (toggleHide id hidden)) topN showAll =
      filteredList (visibleOf (aggValues base m) hidden) topN showAll := by
  have hv : visibleOf (aggValues base m) (toggleHide id hidden) =
      visibleOf (aggValues base m) hidden := by
    apply List.filter_congr
    intro g hg
    have hne : g.appid ≠ id := by
      intro he
      exact h (by simpa [he] using List.mem_map_of_mem (fun g => g.appid) hg)
    simp [mem_toggleHide_ne g.appid id hidden hne]
  rw [hv]

/-- Witness for `toggle_nonentry_feed` at a concrete input. -/
theorem toggle_nonentry_feed_witness :
    filteredList (visibleOf (aggValues [⟨1, "g", 2, "i", "s"⟩] []) (toggleHide 2 ∅)) 0 true =
      filteredList (visibleOf (aggValues [⟨1, "g", 2, "i", "s"⟩] []) ∅) 0 true :=
  toggle_nonentry_feed [⟨1, "g", 2, "i", "s"⟩] [] ∅ 2 0 true acyclic_nil (by decide)

/-- C6 counterexample: a stored merge entry holding the JSON array `[7]` is
of the wrong shape (the documented format is an object mapping stringified
ids to ids), yet the initializer keeps it unchanged because
`typeof [] === "object"` in JS — the loaded value is a non-empty mapping
(index 0 holds 7), not the empty default. -/
theorem loadMerge_array_counterexample :
    loadMergeValue (some (some (Json.arr [Json.num 7]))) = Json.arr [Json.num 7] ∧
    Json.arr [Json.num 7] ≠ Json.obj [] ∧
    jsIndex (Json.arr [Json.num 7]) 0 = some (Json.num 7) ∧
    jsIndex (Json.obj []) 0 = none := by
  exact ⟨rfl, fun h => Json.noConfusion h, rfl, rfl⟩

/-- C6 amended: the initializers never raise (they are total) and return
the empty defaults on a missing entry and on malformed JSON; on wrong-shape
values the hidden set degrades to `∅` for every non-array stored value
`jh`, and the merge mapping degrades to `{}` for every stored value `jm`
that is not a truthy `typeof \x22object\x22` value — but JSON arrays pass
that test and are kept as-is (see the counterexample). -/
theorem load_defaults_amended (jm jh : Json)
    (hm : (truthy jm && typeofObject jm) = false)
    (hh : ∀ es, jh ≠ Json.arr es) :
    (loadMergeValue none = Json.obj [] ∧ loadHidden none = ∅) ∧
    (loadMergeValue (some none) = Json.obj [] ∧ loadHidden (some none) = ∅) ∧
    loadMergeValue (some (some jm)) = Json.obj [] ∧
    loadHidden (some (some jh)) = ∅ := by
  refine ⟨⟨rfl, rfl⟩, ⟨rfl, rfl⟩, ?_, ?_⟩
  · simp [loadMergeValue, hm]
  · cases jh with
    | arr es => exact absurd rfl (hh es)
    | null => rfl
    | bool b => rfl
    | num n => rfl
    | str s => rfl
    | obj fs => rfl

/-- Witness for `load_defaults_amended`: the wrong-shape value `3` under
the merge key and the wrong-shape (non-array) object `{}` under the
hidden-set key. -/
theorem load_defaults_amended_witness :
    (loadMergeValue none = Json.obj [] ∧ loadHidden none = ∅) ∧
    (loadMergeValue (some none) = Json.obj [] ∧ loadHidden (some none) = ∅) ∧
    loadMergeValue (some (some (Json.num 3))) = Json.obj [] ∧
    loadHidden (some (some (Json.obj []))) = ∅ :=
  load_defaults_amended (Json.num 3) (Json.obj []) rfl (fun _ h => Json.noConfusion h)

/-- Association lookup on a cons cell. -/
theorem assocFind_cons (k : ℤ) (v : GameViz) (acc : List (ℤ × GameViz)) (r : ℤ) :
    assocFind ((k, v) :: acc) r = if k = r then some v else assocFind acc r := by
  by_cases h : k = r
  · simp [assocFind, List.find?_cons_of_pos, h]
  · rw [if_neg h]
    unfold assocFind
    rw [List.find?_cons_of_neg]
    simp [h]

/-- Bumping the hours at key `r` keeps the entry there, hours increased. -/
theorem assocFind_bumpHours_self (acc : List (ℤ × GameViz)) (r : ℤ) (h : ℚ) (e : GameViz)
    (hf : assocFind acc r = some e) :
    assocFind (bumpHours acc r h) r = some { e with hours := e.hours + h } := by
  induction acc with
  | nil => simp [assocFind] at hf
  | cons p rest ih =>
    obtain ⟨k, v⟩ := p
    by_cases hk : k = r
    · subst hk
      rw [assocFind_cons, if_pos rfl] at hf
      cases hf
      simp [bumpHours, assocFind_cons]
    · rw [assocFind_cons, if_neg hk] at hf
      simp [bumpHours, hk, assocFind_cons, ih hf]

/-- Bumping the hours at another key does not change the lookup at `r`. -/
theorem assocFind_bumpHours_ne (acc : List (ℤ × GameViz)) (k r : ℤ) (h : ℚ) (hk : k ≠ r) :
    assocFind (bumpHours acc k h) r = assocFind acc r := by
  induction acc with
  | nil => rfl
  | cons p rest ih =>
    obtain ⟨k', v⟩ := p
    by_cases hk' : k' = k
    · subst hk'
      simp [bumpHours, assocFind_cons, hk]
    · simp [bumpHours, hk', assocFind_cons, ih]

/-- Lookup across appending one fresh entry at the end. -/
theorem assocFind_append_one (acc : List (ℤ × GameViz)) (k : ℤ) (e : GameViz) (r : ℤ) :
    assocFind (acc ++ [(k, e)]) r =
      match assocFind acc r with
      | some x => some x
      | none => if k = r then some e else none := by
  induction acc with
  | nil =>
    show assocFind [(k, e)] r = _
    rw [assocFind_cons]
    rfl
  | cons p rest ih =>
    obtain ⟨k', v⟩ := p
    by_cases hk' : k' = r
    · simp [assocFind_cons, hk']
    · simp only [List.cons_append, assocFind_cons, if_neg hk', ih]

/-- One aggregation pass keyed at a different root leaves the lookup at `r`
unchanged. -/
theorem assocFind_aggStep_ne (base : List GameViz) (m : MergeMap)
    (acc : List (ℤ × GameViz)) (g : GameViz) (r : ℤ)
    (hk : findMergeRoot m g.appid ≠ r) :
    assocFind (aggStep base m acc g) r = assocFind acc r := by
  unfold aggStep
  simp only
  cases hsc : assocFind acc (findMergeRoot m g.appid) with
  | some x => exact assocFind_bumpHours_ne acc _ r g.hours hk
  | none =>
    rw [assocFind_append_one]
    cases h2 : assocFind acc r with
    | some x => rfl
    | none => simp [hk]

/-- One aggregation pass preserves the display identity of an existing
entry (only its hours may change). -/
theorem ident_aggStep_pres (base : List GameViz) (m : MergeMap)
    (acc : List (ℤ × GameViz)) (g : GameViz) (r : ℤ) (e : GameViz)
    (hf : assocFind acc r = some e) :
    ∃ e', assocFind (aggStep base m acc g) r = some e' ∧ ident e' = ident e := by
  by_cases hk : findMergeRoot m g.appid = r
  · refine ⟨{ e with hours := e.hours + g.hours }, ?_, rfl⟩
    unfold aggStep
    simp only
    rw [hk, hf]
    exact assocFind_bumpHours_self acc r g.hours e hf
  · exact ⟨e, by rw [assocFind_aggStep_ne base m acc g r hk]; exact hf, rfl⟩

/-- Folding the aggregation loop preserves the display identity of an
existing entry. -/
theorem ident_foldl_pres (base : List GameViz) (m : MergeMap) (l : List GameViz) :
    ∀ acc r e, assocFind acc r = some e →
      ∃ e', assocFind (l.foldl (aggStep base m) acc) r = some e' ∧ ident e' = ident e := by
  induction l with
  | nil => exact fun acc r e hf => ⟨e, hf, rfl⟩
  | cons g t ih =>
    intro acc r e hf
    obtain ⟨e1, h1, hid1⟩ := ident_aggStep_pres base m acc g r e hf
    obtain ⟨e2, h2, hid2⟩ := ih (aggStep base m acc g) r e1 h1
    exact ⟨e2, h2, hid2.trans hid1⟩

/-- When the bucket for `r` does not exist yet, it is created by the first
title of `l` resolving to `r`, with identity `byId.get(r) || g`. -/
theorem ident_foldl_create (base : List GameViz) (m : MergeMap) (r : ℤ) (l : List GameViz) :
    ∀ acc g, l.find? (fun x => findMergeRoot m x.appid == r) = some g →
      assocFind acc r = none →
      ∃ e', assocFind (l.foldl (aggStep base m) acc) r = some e' ∧
        ident e' = ident ((byIdGet base r).getD g) := by
  induction l with
  | nil => intro acc g hfind; simp at hfind
  | cons g' t ih =>
    intro acc g hfind hnone
    by_cases hp : findMergeRoot m g'.appid = r
    · have hg : g' = g := by
        rw [List.find?_cons_of_pos _ (by simp [hp])] at hfind
        exact Option.some.inj hfind
      subst hg
      have hstep : assocFind (aggStep base m acc g') r =
          some { (byIdGet base r).getD g' with hours := g'.hours } := by
        unfold aggStep
        simp only
        rw [hp, hnone, assocFind_append_one, hnone]
        simp
      obtain ⟨e2, h2, hid2⟩ :=
        ident_foldl_pres base m t (aggStep base m acc g') r _ hstep
      exact ⟨e2, h2, hid2⟩
    · have hfind' : t.find? (fun x => findMergeRoot m x.appid == r) = some g := by
        rwa [List.find?_cons_of_neg _ (by simp [hp])] at hfind
      have hnone' : assocFind (aggStep base m acc g') r = none := by
        rw [assocFind_aggStep_ne base m acc g' r hp]
        exact hnone
      exact ih (aggStep base m acc g') g hfind' hnone'

/-- C8 counterexample: titles 5 and 3 both merge into the dangling root 100
(no title has id 100).  The aggregated entry's display identity comes from
title 5 — the first contributor in input order — not from title 3, the
contributor with the smallest id. -/
theorem aggregate_identity_counterexample :
    (assocFind (aggregateApp [⟨5, "five", 10, "i5", "s5"⟩, ⟨3, "three", 7, "i3", "s3"⟩]
        [(5, 100), (3, 100)]) 100).map ident = some (5, "five", "i5", "s5") ∧
    findMergeRoot [(5, 100), (3, 100)] 5 = 100 ∧
    findMergeRoot [(5, 100), (3, 100)] 3 = 100 ∧
    (100 : ℤ) ∉ [(5 : ℤ), 3] ∧
    (3 : ℤ) < 5 := by
  decide

/-- C8 amended: for a root `r` with at least one contributing title, the
aggregated entry's display identity is taken from the title with id `r`
when one exists among the raw titles (last occurrence winning on duplicate
ids), and otherwise from the FIRST contributing title in input order — not
from the contributor with the smallest id. -/
theorem aggregate_identity_amended (base : List GameViz) (m : MergeMap) (r : ℤ) (g : GameViz)
    (hfind : base.find? (fun x => findMergeRoot m x.appid == r) = some g) :
    ∃ e, assocFind (aggregateApp base m) r = some e ∧
      ident e = ident ((byIdGet base r).getD g) :=
  ident_foldl_create base m r base [] g hfind rfl

/-- Witness for `aggregate_identity_amended` at a concrete input. -/
theorem aggregate_identity_amended_witness :
    ∃ e, assocFind (aggregateApp [⟨1, "a", 2, "i", "s"⟩] []) 1 = some e ∧
      ident e = ident ((byIdGet [⟨1, "a", 2, "i", "s"⟩] 1).getD ⟨1, "a", 2, "i", "s"⟩) :=
  aggregate_identity_amended [⟨1, "a", 2, "i", "s"⟩] [] 1 ⟨1, "a", 2, "i", "s"⟩ (by decide)

/-- A node with an outgoing edge is among the (distinct) source keys. -/
theorem mem_keys_of_lookupEdge (m : MergeMap) (cur next : ℤ)
    (h : lookupEdge m cur = some next) : cur ∈ (m.map Prod.fst).dedup := by
  unfold lookupEdge at h
  cases hf : m.find? (fun p => p.1 == cur) with
  | none => rw [hf] at h; simp at h
  | some p =>
    have hp := List.find?_some hf
    have hmem : p ∈ m := List.mem_of_find?_eq_some hf
    rw [List.mem_dedup]
    have h1 : p.1 = cur := by simpa using hp
    exact h1 ▸ List.mem_map_of_mem Prod.fst hmem

/-- A stronger filter keeps at most as many elements. -/
theorem length_filter_mono (p q : ℤ → Bool) (l : List ℤ) (h : ∀ a, q a = true → p a = true) :
    (l.filter q).length ≤ (l.filter p).length := by
  induction l with
  | nil => simp
  | cons a t ih =>
    by_cases hq : q a = true
    · rw [List.filter_cons, if_pos hq, List.filter_cons, if_pos (h a hq)]
      simpa using ih
    · rw [List.filter_cons, if_neg hq, List.filter_cons]
      split
      · exact le_trans ih (Nat.le_succ _)
      · exact ih

/-- The loop variant strictly decreases when a fresh keyed node enters the
guard set. -/
theorem unseen_cons_lt (m : MergeMap) (seen : List ℤ) (cur : ℤ)
    (hk : cur ∈ (m.map Prod.fst).dedup) (hs : cur ∉ seen) :
    unseenCount m (cur :: seen) < unseenCount m seen := by
  unfold unseenCount
  revert hk
  generalize (m.map Prod.fst).dedup = l
  intro hk
  induction l with
  | nil => simp at hk
  | cons a t ih =>
    rw [List.filter_cons, List.filter_cons]
    by_cases hac : a = cur
    · subst hac
      rw [if_neg (by simp), if_pos (by simpa using hs)]
      exact Nat.lt_succ_of_le
        (length_filter_mono _ _ t (fun b hb => by
          simp only [decide_eq_true_eq] at hb ⊢
          exact fun hbs => hb (List.mem_cons_of_mem _ hbs)))
    · have hkt : cur ∈ t := by
        cases List.mem_cons.mp hk with
        | inl h1 => exact absurd h1.symm hac
        | inr h1 => exact h1
      by_cases has : a ∈ seen
      · rw [if_neg (by simp [has]), if_neg (by simp [has])]
        exact ih hkt
      · rw [if_pos (by simp [hac, has]), if_pos (by simpa using has)]
        exact Nat.succ_lt_succ (ih hkt)

/-- When every keyed node is already guarded, the loop exits at once. -/
theorem go_of_unseen_zero (m : MergeMap) (fuel : ℕ) (seen : List ℤ) (cur : ℤ)
    (h : unseenCount m seen = 0) : findMergeRootGo m fuel seen cur = cur := by
  cases fuel with
  | zero => rfl
  | succ f =>
    unfold findMergeRootGo
    cases hl : lookupEdge m cur with
    | none => rfl
    | some next =>
      simp only
      by_cases hs : cur ∈ seen
      · rw [if_pos hs]
      · exfalso
        have hmem : cur ∈ ((m.map Prod.fst).dedup).filter (fun k => decide (k ∉ seen)) :=
          List.mem_filter.mpr ⟨mem_keys_of_lookupEdge m cur next hl, by simpa using hs⟩
        rw [show (((m.map Prod.fst).dedup).filter (fun k => decide (k ∉ seen))) = [] from
          List.length_eq_zero.mp h] at hmem
        exact List.not_mem_nil cur hmem

/-- Fuel irrelevance: any two fuels of at least the number of distinct
unguarded source identifiers give the same loop result — the loop performs
at most that many iterations. -/
theorem go_fuel_eq (m : MergeMap) : ∀ (f1 f2 : ℕ) (seen : List ℤ) (cur : ℤ),
    unseenCount m seen ≤ f1 → unseenCount m seen ≤ f2 →
    findMergeRootGo m f1 seen cur = findMergeRootGo m f2 seen cur := by
  intro f1
  induction f1 with
  | zero =>
    intro f2 seen cur h1 _
    rw [go_of_unseen_zero m 0 seen cur (Nat.le_zero.mp h1),
      go_of_unseen_zero m f2 seen cur (Nat.le_zero.mp h1)]
  | succ f ih =>
    intro f2 seen cur h1 h2
    cases f2 with
    | zero =>
      rw [go_of_unseen_zero m _ seen cur (Nat.le_zero.mp h2),
        go_of_unseen_zero m _ seen cur (Nat.le_zero.mp h2)]
    | succ f2' =>
      unfold findMergeRootGo
      cases hl : lookupEdge m cur with
      | none => rfl
      | some next =>
        simp only
        by_cases hs : cur ∈ seen
        · rw [if_pos hs, if_pos hs]
        · rw [if_neg hs, if_neg hs]
          have hlt := unseen_cons_lt m seen cur (mem_keys_of_lookupEdge m cur next hl) hs
          exact ih f2' (cur :: seen) next (by omega) (by omega)

/-- The defensive guard: revisiting a node that is already in the guard set
stops the loop, which returns that node. -/
theorem go_guard (m : MergeMap) (fuel : ℕ) (seen : List ℤ) (cur : ℤ) (hs : cur ∈ seen) :
    findMergeRootGo m fuel seen cur = cur := by
  cases fuel with
  | zero => rfl
  | succ f =>
    unfold findMergeRootGo
    cases lookupEdge m cur with
    | none => rfl
    | some next => simp [hs]

/-- On an acyclic forest the loop ends at a node with no outgoing edge. -/
theorem go_no_edge (m : MergeMap) (hac : Acyclic m) :
    ∀ (fuel : ℕ) (seen : List ℤ) (cur : ℤ),
      unseenCount m seen ≤ fuel →
      (∀ s ∈ seen, Relation.TransGen (stepRel m) s cur) →
      lookupEdge m (findMergeRootGo m fuel seen cur) = none := by
  intro fuel
  induction fuel with
  | zero =>
    intro seen cur h hinv
    show lookupEdge m cur = none
    cases hl : lookupEdge m cur with
    | none => rfl
    | some next =>
      exfalso
      by_cases hs : cur ∈ seen
      · exact hac cur (hinv cur hs)
      · have hmem : cur ∈ ((m.map Prod.fst).dedup).filter (fun k => decide (k ∉ seen)) :=
          List.mem_filter.mpr ⟨mem_keys_of_lookupEdge m cur next hl, by simpa using hs⟩
        rw [show (((m.map Prod.fst).dedup).filter (fun k => decide (k ∉ seen))) = [] from
          List.length_eq_zero.mp (Nat.le_zero.mp h)] at hmem
        exact List.not_mem_nil cur hmem
  | succ f ih =>
    intro seen cur h hinv
    unfold findMergeRootGo
    cases hl : lookupEdge m cur with
    | none => exact hl
    | some next =>
      simp only
      by_cases hs : cur ∈ seen
      · rw [if_pos hs]
        exact absurd (hinv cur hs) (hac cur)
      · rw [if_neg hs]
        have hlt := unseen_cons_lt m seen cur (mem_keys_of_lookupEdge m cur next hl) hs
        refine ih (cur :: seen) next (by omega) ?_
        intro s hs'
        rcases List.mem_cons.mp hs' with h1 | h1
        · subst h1; exact Relation.TransGen.single hl
        · exact Relation.TransGen.tail (hinv s h1) hl

/-- Forests reachable through successful `addEdge` commits only: starting
from the empty forest and repeatedly inserting an edge that passes the
checks of `addMerge` (distinct present endpoints, and the root-resolution
test on the forest with the candidate edge inserted). -/
inductive BuiltByMerges : MergeMap → Prop
  | nil : BuiltByMerges []
  | step (m : MergeMap) (f t : ℤ) : BuiltByMerges m → f ≠ t →
      findMergeRoot (insertEdge m f t) t ≠ f → BuiltByMerges (insertEdge m f t)

/-- C3 counterexample: the forest {2→1, 1→3, 3→2} is reachable through
successful `addEdge` calls alone (each step passes the cycle check, which
is ineffective), yet resolving 1 returns a node that still has an outgoing
edge — the "returns an id with no outgoing edge" part fails for
addEdge-built forests because the cycle check lets cycles through. -/
theorem resolveRoot_counterexample :
    BuiltByMerges [(2, 1), (1, 3), (3, 2)] ∧
    lookupEdge [(2, 1), (1, 3), (3, 2)]
      (findMergeRoot [(2, 1), (1, 3), (3, 2)] 1) ≠ none := by
  constructor
  · exact BuiltByMerges.step [(2, 1), (1, 3)] 3 2
      (BuiltByMerges.step [(2, 1)] 1 3
        (BuiltByMerges.step [] 2 1 BuiltByMerges.nil (by decide) (by decide))
        (by decide) (by decide))
      (by decide) (by decide)
  · decide

/-- C3 amended: (i) for EVERY forest — not only addEdge-built ones —
`findMergeRoot` terminates within (number of distinct source identifiers)
loop iterations, hence within N steps for N the number of identifiers ever
referenced: any fuel of at least that count yields the final result;
(ii) the result has no outgoing edge provided the forest is acyclic — which
addEdge-built forests need not be, see the counterexample; (iii) for any
forest, corrupted ones included, reaching a node already in the guard set
stops resolution and returns that node. -/
theorem resolveRoot_amended (m : MergeMap) (id : ℤ) (fuel : ℕ) :
    ((m.map Prod.fst).dedup.length ≤ fuel →
      findMergeRootGo m fuel [] id = findMergeRoot m id) ∧
    (Acyclic m → lookupEdge m (findMergeRoot m id) = none) ∧
    (∀ seen cur, cur ∈ seen → findMergeRootGo m fuel seen cur = cur) := by
  have hnil : unseenCount m [] = (m.map Prod.fst).dedup.length := by
    unfold unseenCount
    simp
  have hlen : (m.map Prod.fst).dedup.length ≤ m.length + 1 := by
    have h1 : (m.map Prod.fst).dedup.length ≤ (m.map Prod.fst).length :=
      List.Sublist.length_le (List.dedup_sublist _)
    rw [List.length_map] at h1
    omega
  refine ⟨?_, ?_, fun seen cur hs => go_guard m fuel seen cur hs⟩
  · intro hf
    exact go_fuel_eq m fuel (m.length + 1) [] id (by omega) (by omega)
  · intro hac
    exact go_no_edge m hac (m.length + 1) [] id (by omega) (by simp)

/-- Witness for `resolveRoot_amended` at concrete inputs. -/
theorem resolveRoot_amended_witness :
    findMergeRootGo [] 0 [] 7 = findMergeRoot [] 7 ∧
    lookupEdge [] (findMergeRoot ([] : MergeMap) 7) = none ∧
    findMergeRootGo ([] : MergeMap) 0 [3] 3 = 3 :=
  ⟨(resolveRoot_amended [] 7 0).1 (by decide),
   (resolveRoot_amended [] 7 0).2.1 acyclic_nil,
   (resolveRoot_amended [] 7 0).2.2 [3] 3 (by decide)⟩
